import Mathlib

/-!
Shallow embedding of the prediction-market program
(`src/programs/prediction-market/src/lib.rs`).

Machine integers are modelled as `Nat`.  `u64::saturating_add`,
`u64::saturating_sub`, `u128::saturating_mul` are modelled explicitly; the
`as u64` narrowing cast in the source is modelled as reduction modulo `2^64`
(`u64cast`), exactly as Rust defines it.  `u64::saturating_div` and
`u128::saturating_div` can never saturate, so they are modelled as `Nat`
floor division.  Timestamps (`i64`) are modelled as `Int`; `Pubkey` values
as `Nat`.  `Clock::get()?.unix_timestamp` is an explicit `now` argument.

Each Anchor instruction handler becomes a pure function returning
`Except MarketError _`; a returned error models the aborted transaction
(no state mutation).  On top of the per-instruction functions, `Chain`,
`Op`, `step` and `run` give a trace semantics for a single market: `step`
also enforces the Anchor account constraints that matter here (the
prediction PDA for `(market, predictor)` is created with `init`, so a
second `place_prediction` by the same predictor fails, and `claim_reward`
resolves the PDA of the calling claimer).
-/

namespace PredictionMarket

def U64_MAX : Nat := 2 ^ 64 - 1

def U128_MAX : Nat := 2 ^ 128 - 1

/-- `u64::saturating_add`. -/
def saturating_add (a b : Nat) : Nat := min (a + b) U64_MAX

/-- `u64::saturating_sub` (`Nat` subtraction is already truncated at 0). -/
def saturating_sub (a b : Nat) : Nat := a - b

/-- `u128::saturating_mul` on operands obtained by widening `u64` values. -/
def saturating_mul_u128 (a b : Nat) : Nat := min (a * b) U128_MAX

/-- The `as u64` narrowing cast. -/
def u64cast (x : Nat) : Nat := x % 2 ^ 64

/-- `MarketError` from the source, one constructor per `#[error_code]` variant. -/
inductive MarketError where
  | InvalidQuestion
  | InvalidResolutionTime
  | InvalidAmount
  | MarketAlreadyResolved
  | MarketExpired
  | InsufficientOutput
  | Unauthorized
  | MarketNotResolved
  | MarketNotExpired
  | AlreadyClaimed
  | InvalidOutcome
  | PredictionLost
  | NoReward
  | InsufficientFees
deriving DecidableEq, Repr

/-- The `Market` account. -/
structure Market where
  market_id : Nat
  question : String
  creator : Nat
  created_at : Int
  resolution_time : Int
  yes_pool : Nat
  no_pool : Nat
  total_liquidity : Nat
  resolved : Bool
  outcome : Option Bool
  yes_token_vault : Nat
  no_token_vault : Nat
  fee_collected : Nat
deriving DecidableEq, Repr, Inhabited

/-- The `Prediction` account. -/
structure Prediction where
  market_id : Nat
  predictor : Nat
  prediction_type : Bool
  amount_deposited : Nat
  tokens_received : Nat
  created_at : Int
  claimed : Bool
deriving DecidableEq, Repr, Inhabited

/-- `initialize_market`.  `initial_liquidity.saturating_div(2)` cannot
saturate, so it is `initial_liquidity / 2`. -/
def initialize_market (now : Int) (creator yes_token_vault no_token_vault : Nat)
    (market_id : Nat) (question : String) (resolution_time : Int)
    (initial_liquidity : Nat) : Except MarketError Market :=
  if 0 < question.length ∧ question.length ≤ 256 then
    if now < resolution_time then
      .ok { market_id := market_id
            question := question
            creator := creator
            created_at := now
            resolution_time := resolution_time
            yes_pool := initial_liquidity / 2
            no_pool := initial_liquidity / 2
            total_liquidity := initial_liquidity
            resolved := false
            outcome := none
            yes_token_vault := yes_token_vault
            no_token_vault := no_token_vault
            fee_collected := 0 }
    else .error .InvalidResolutionTime
  else .error .InvalidQuestion

/-- The constant-product output computed inline in `place_prediction`
(identical for both branches):
`(amount as u128).saturating_mul(pool).saturating_div(pool.saturating_add(amount)) as u64`. -/
def amm_tokens_out (pool amount : Nat) : Nat :=
  let denominator := saturating_add pool amount
  u64cast (saturating_mul_u128 amount pool / denominator)

/-- `place_prediction`.  Returns the updated market and the freshly
initialized `Prediction` account; the SOL transfer into the vault is the
custody side effect and carries no extra state here. -/
def place_prediction (now : Int) (market : Market) (predictor : Nat)
    (market_id : Nat) (prediction_type : Bool) (amount : Nat) :
    Except MarketError (Market × Prediction) :=
  if 0 < amount then
    if market.resolved then .error .MarketAlreadyResolved
    else
      if now < market.resolution_time then
        if 0 < (if prediction_type then amm_tokens_out market.yes_pool amount
                else amm_tokens_out market.no_pool amount) then
          .ok ((if prediction_type then
                  { market with yes_pool := saturating_add market.yes_pool amount }
                else
                  { market with no_pool := saturating_add market.no_pool amount }),
               { market_id := market_id
                 predictor := predictor
                 prediction_type := prediction_type
                 amount_deposited := amount
                 tokens_received :=
                   if prediction_type then amm_tokens_out market.yes_pool amount
                   else amm_tokens_out market.no_pool amount
                 created_at := now
                 claimed := false })
        else .error .InsufficientOutput
      else .error .MarketExpired
  else .error .InvalidAmount

/-- `resolve_market`. -/
def resolve_market (now : Int) (market : Market) (admin : Nat)
    (outcome : Bool) : Except MarketError Market :=
  if market.creator = admin then
    if market.resolved then .error .MarketAlreadyResolved
    else
      if market.resolution_time ≤ now then
        .ok { market with resolved := true, outcome := some outcome }
      else .error .MarketNotExpired
  else .error .Unauthorized

/-- `claim_reward`.  The market account is not mutable in `ClaimReward`
and the handler only reads it; the result is the updated prediction
account together with the number of lamports moved out of the vault. -/
def claim_reward (market : Market) (prediction : Prediction) (claimer : Nat) :
    Except MarketError (Prediction × Nat) :=
  if market.resolved then
    if prediction.predictor = claimer then
      if prediction.claimed then .error .AlreadyClaimed
      else
        match market.outcome with
        | none => .error .InvalidOutcome
        | some outcome =>
          if prediction.prediction_type = outcome then
            if 0 < (if 0 < (if outcome then market.yes_pool else market.no_pool) then
                      u64cast (saturating_mul_u128 prediction.tokens_received
                          (saturating_add market.yes_pool market.no_pool)
                        / (if outcome then market.yes_pool else market.no_pool))
                    else 0) then
              .ok ({ prediction with claimed := true },
                   if 0 < (if outcome then market.yes_pool else market.no_pool) then
                     u64cast (saturating_mul_u128 prediction.tokens_received
                         (saturating_add market.yes_pool market.no_pool)
                       / (if outcome then market.yes_pool else market.no_pool))
                   else 0)
            else .error .NoReward
          else .error .PredictionLost
    else .error .Unauthorized
  else .error .MarketNotResolved

/-- `withdraw_fees`.  Returns the updated market together with the number
of lamports moved out of the vault. -/
def withdraw_fees (market : Market) (admin : Nat) (amount : Nat) :
    Except MarketError (Market × Nat) :=
  if market.creator = admin then
    if amount ≤ market.fee_collected then
      .ok ({ market with fee_collected := saturating_sub market.fee_collected amount },
           amount)
    else .error .InsufficientFees
  else .error .Unauthorized

/-! ### Trace semantics for a single market -/

/-- First-match association-list lookup for prediction accounts, keyed by
the predictor's pubkey (the PDA seed `[b"prediction", market_id, predictor]`). -/
def lookupPred (k : Nat) : List (Nat × Prediction) → Option Prediction
  | [] => none
  | e :: rest => if e.1 = k then some e.2 else lookupPred k rest

/-- Overwrite the prediction account stored under key `k`. -/
def setPred (k : Nat) (p : Prediction) : List (Nat × Prediction) → List (Nat × Prediction) :=
  List.map fun e => if e.1 = k then (k, p) else e

/-- On-chain state of one market: the market account, the prediction
accounts keyed by predictor, plus two observers used to state trace
properties: `paid` (total lamports ever moved out by `claim_reward`) and
`deposited` (total lamports ever moved in by `place_prediction`). -/
structure Chain where
  market : Market
  preds : List (Nat × Prediction)
  paid : Nat
  deposited : Nat
deriving DecidableEq, Repr, Inhabited

/-- One external request against an existing market. -/
inductive Op where
  | place (now : Int) (predictor : Nat) (prediction_type : Bool) (amount : Nat)
  | resolve (now : Int) (admin : Nat) (outcome : Bool)
  | claim (claimer : Nat)
  | withdraw (admin : Nat) (amount : Nat)
deriving DecidableEq, Repr

/-- Execute one request.  `none` models a failed (hence stateless)
transaction: an instruction error, or Anchor's `init` constraint rejecting
a second prediction account for the same predictor, or a `claim_reward`
whose prediction PDA does not exist. -/
def step (c : Chain) : Op → Option Chain
  | .place now predictor prediction_type amount =>
    if (lookupPred predictor c.preds).isSome then none
    else
      match place_prediction now c.market predictor c.market.market_id
          prediction_type amount with
      | .error _ => none
      | .ok (m', pred) =>
        some { c with market := m'
                      preds := (predictor, pred) :: c.preds
                      deposited := c.deposited + amount }
  | .resolve now admin outcome =>
    match resolve_market now c.market admin outcome with
    | .error _ => none
    | .ok m' => some { c with market := m' }
  | .claim claimer =>
    match lookupPred claimer c.preds with
    | none => none
    | some pred =>
      match claim_reward c.market pred claimer with
      | .error _ => none
      | .ok (pred', reward) =>
        some { c with preds := setPred claimer pred' c.preds
                      paid := c.paid + reward }
  | .withdraw admin amount =>
    match withdraw_fees c.market admin amount with
    | .error _ => none
    | .ok (m', _) => some { c with market := m' }

/-- Run a request sequence; failed requests leave the state unchanged. -/
def run (c : Chain) (ops : List Op) : Chain :=
  ops.foldl (fun c op => (step c op).getD c) c

/-- Create the market and start the trace. -/
def initChain (now : Int) (creator yes_token_vault no_token_vault : Nat)
    (market_id : Nat) (question : String) (resolution_time : Int)
    (initial_liquidity : Nat) : Except MarketError Chain :=
  (initialize_market now creator yes_token_vault no_token_vault market_id
      question resolution_time initial_liquidity).map
    fun m => { market := m, preds := [], paid := 0, deposited := 0 }

/-- Amount moved into the vault by a request, if it is a deposit. -/
def opDeposit : Op → Nat
  | .place _ _ _ amount => amount
  | _ => 0

/-- Total amount the deposits of a request sequence attempt to move in. -/
def sumDeposits (ops : List Op) : Nat := (ops.map opDeposit).sum

/-! ### Arithmetic lemmas about the saturating operations -/

theorem u64cast_le (x : Nat) : u64cast x ≤ x := Nat.mod_le x _

theorem u64cast_eq_of_le {x : Nat} (h : x ≤ U64_MAX) : u64cast x = x := by
  have : x < 2 ^ 64 := lt_of_le_of_lt h (by norm_num [U64_MAX])
  exact Nat.mod_eq_of_lt this

theorem saturating_mul_u128_eq {a b : Nat} (ha : a ≤ U64_MAX) (hb : b ≤ U64_MAX) :
    saturating_mul_u128 a b = a * b := by
  have h : a * b ≤ U128_MAX := by
    calc a * b ≤ U64_MAX * U64_MAX := Nat.mul_le_mul ha hb
    _ ≤ U128_MAX := by norm_num [U64_MAX, U128_MAX]
  exact min_eq_left h

theorem saturating_mul_u128_le (a b : Nat) : saturating_mul_u128 a b ≤ a * b :=
  min_le_left _ _

theorem saturating_add_le (a b : Nat) : saturating_add a b ≤ a + b := min_le_left _ _

theorem saturating_add_le_max (a b : Nat) : saturating_add a b ≤ U64_MAX := min_le_right _ _

theorem saturating_add_eq {a b : Nat} (h : a + b ≤ U64_MAX) : saturating_add a b = a + b :=
  min_eq_left h

theorem le_saturating_add_left {a : Nat} (b : Nat) (ha : a ≤ U64_MAX) :
    a ≤ saturating_add a b :=
  le_min (Nat.le_add_right a b) ha

/-- Cross-multiplied monotonicity of `Nat` floor division. -/
theorem div_le_div_cross {x y x' y' : Nat} (hy : 0 < y) (hy' : 0 < y')
    (h : x * y' ≤ x' * y) : x / y ≤ x' / y' := by
  rw [Nat.le_div_iff_mul_le hy']
  have h1 : x / y * y' * y ≤ x' * y := by
    calc x / y * y' * y = x / y * y * y' := by ring
    _ ≤ x * y' := Nat.mul_le_mul_right y' (Nat.div_mul_le_self x y)
    _ ≤ x' * y := h
  exact Nat.le_of_mul_le_mul_right h1 hy

/-- The AMM output never exceeds the amount deposited. -/
theorem amm_tokens_out_le_amount {pool amount : Nat} (hp : pool ≤ U64_MAX) :
    amm_tokens_out pool amount ≤ amount := by
  unfold amm_tokens_out
  rcases Nat.eq_zero_or_pos pool with h0 | h0
  · subst h0
    simp [saturating_mul_u128, u64cast]
  · have hden : pool ≤ saturating_add pool amount := le_saturating_add_left amount hp
    calc u64cast (saturating_mul_u128 amount pool / saturating_add pool amount)
        ≤ saturating_mul_u128 amount pool / saturating_add pool amount := u64cast_le _
    _ ≤ amount * pool / saturating_add pool amount := by
        exact Nat.div_le_div_right (saturating_mul_u128_le _ _)
    _ ≤ amount * pool / pool := Nat.div_le_div_left hden h0
    _ = amount := Nat.mul_div_cancel amount h0

/-- With no saturation the AMM output is the plain floor formula. -/
theorem amm_tokens_out_eq {pool amount : Nat} (h : pool + amount ≤ U64_MAX) :
    amm_tokens_out pool amount = amount * pool / (pool + amount) := by
  have hp : pool ≤ U64_MAX := le_trans (Nat.le_add_right _ _) h
  have ha : amount ≤ U64_MAX := le_trans (Nat.le_add_left _ _) h
  unfold amm_tokens_out
  rw [saturating_add_eq h, saturating_mul_u128_eq ha hp]
  apply u64cast_eq_of_le
  rcases Nat.eq_zero_or_pos pool with h0 | h0
  · simp [h0]
  · calc amount * pool / (pool + amount) ≤ amount * pool / pool :=
        Nat.div_le_div_left (Nat.le_add_right _ _) h0
    _ = amount := Nat.mul_div_cancel amount h0
    _ ≤ U64_MAX := ha

/-- The AMM output is monotone (non-decreasing) in the deposit amount. -/
theorem amm_tokens_out_mono {pool a a' : Nat} (hp : pool ≤ U64_MAX)
    (haa : a ≤ a') (ha' : a' ≤ U64_MAX) :
    amm_tokens_out pool a ≤ amm_tokens_out pool a' := by
  have ha : a ≤ U64_MAX := le_trans haa ha'
  unfold amm_tokens_out
  rw [saturating_mul_u128_eq ha hp, saturating_mul_u128_eq ha' hp]
  rcases Nat.eq_zero_or_pos pool with h0 | h0
  · simp [h0]
  · have hd : 0 < saturating_add pool a := lt_of_lt_of_le h0 (le_saturating_add_left a hp)
    have hd' : 0 < saturating_add pool a' := lt_of_lt_of_le h0 (le_saturating_add_left a' hp)
    have hcross : a * pool * (pool + a') ≤ a' * pool * (pool + a) := by
      have h2 : a * (pool * pool) ≤ a' * (pool * pool) := Nat.mul_le_mul_right _ haa
      calc a * pool * (pool + a') = a * (pool * pool) + a * pool * a' := by ring
      _ ≤ a' * (pool * pool) + a * pool * a' := Nat.add_le_add_right h2 _
      _ = a' * pool * (pool + a) := by ring
    have key : a * pool * saturating_add pool a' ≤ a' * pool * saturating_add pool a := by
      rcases le_or_lt (pool + a') U64_MAX with hs' | hs'
      · have hs : pool + a ≤ U64_MAX := le_trans (by omega) hs'
        rw [saturating_add_eq hs, saturating_add_eq hs']
        exact hcross
      · rw [saturating_add, min_eq_right (le_of_lt hs')]
        rcases le_or_lt (pool + a) U64_MAX with hs | hs
        · rw [saturating_add_eq hs]
          have h1 : a * pool * U64_MAX ≤ a * pool * (pool + a') :=
            Nat.mul_le_mul_left _ (le_of_lt hs')
          exact le_trans h1 hcross
        · rw [saturating_add, min_eq_right (le_of_lt hs)]
          exact Nat.mul_le_mul_right _ (Nat.mul_le_mul_right _ haa)
    have hdiv : a * pool / saturating_add pool a ≤ a' * pool / saturating_add pool a' :=
      div_le_div_cross hd hd' key
    calc u64cast (a * pool / saturating_add pool a)
        ≤ a * pool / saturating_add pool a := u64cast_le _
    _ ≤ a' * pool / saturating_add pool a' := hdiv
    _ = u64cast (a' * pool / saturating_add pool a') := by
        refine (u64cast_eq_of_le ?_).symm
        calc a' * pool / saturating_add pool a' ≤ a' * pool / pool :=
            Nat.div_le_div_left (le_saturating_add_left a' hp) h0
        _ = a' := Nat.mul_div_cancel a' h0
        _ ≤ U64_MAX := ha'

/-! ### Prediction-account store lemmas -/

/-- All keys in the store are distinct (Anchor PDAs are unique per
`(market, predictor)`; `step` maintains this). -/
def keysDistinct : List (Nat × Prediction) → Prop
  | [] => True
  | e :: rest => lookupPred e.1 rest = none ∧ keysDistinct rest

/-- Tokens held by unclaimed predictions on side `o`. -/
def sumSide (o : Bool) : List (Nat × Prediction) → Nat
  | [] => 0
  | e :: rest =>
    (if e.2.prediction_type = o ∧ e.2.claimed = false then e.2.tokens_received else 0)
      + sumSide o rest

theorem lookupPred_cons (k : Nat) (e : Nat × Prediction) (rest : List (Nat × Prediction)) :
    lookupPred k (e :: rest) = if e.1 = k then some e.2 else lookupPred k rest := rfl

theorem setPred_cons (k : Nat) (p : Prediction) (e : Nat × Prediction)
    (rest : List (Nat × Prediction)) :
    setPred k p (e :: rest) = (if e.1 = k then (k, p) else e) :: setPred k p rest := rfl

theorem sumSide_cons (o : Bool) (e : Nat × Prediction) (rest : List (Nat × Prediction)) :
    sumSide o (e :: rest) =
      (if e.2.prediction_type = o ∧ e.2.claimed = false then e.2.tokens_received else 0)
        + sumSide o rest := rfl

theorem setPred_of_lookup_none {k : Nat} {p : Prediction} :
    ∀ {ps : List (Nat × Prediction)}, lookupPred k ps = none → setPred k p ps = ps := by
  intro ps
  induction ps with
  | nil => intro _; rfl
  | cons e rest ih =>
    intro h
    rw [lookupPred_cons] at h
    by_cases he : e.1 = k
    · simp [he] at h
    · rw [if_neg he] at h
      rw [setPred_cons, if_neg he, ih h]

theorem lookupPred_setPred_ne {j k : Nat} {p : Prediction} (hjk : j ≠ k) :
    ∀ ps : List (Nat × Prediction), lookupPred j (setPred k p ps) = lookupPred j ps := by
  intro ps
  induction ps with
  | nil => rfl
  | cons e rest ih =>
    rw [setPred_cons]
    by_cases he : e.1 = k
    · have hkj : ¬ ((k, p).1 = j) := fun h => hjk h.symm
      have hej : ¬ (e.1 = j) := by rw [he]; exact fun h => hjk h.symm
      rw [if_pos he, lookupPred_cons, lookupPred_cons, if_neg hkj, if_neg hej, ih]
    · rw [if_neg he, lookupPred_cons, lookupPred_cons, ih]

theorem lookupPred_setPred_none {j k : Nat} {p : Prediction} :
    ∀ {ps : List (Nat × Prediction)}, lookupPred j ps = none →
      lookupPred j (setPred k p ps) = none := by
  intro ps
  induction ps with
  | nil => intro _; rfl
  | cons e rest ih =>
    intro h
    rw [lookupPred_cons] at h
    by_cases he : e.1 = j
    · simp [he] at h
    · rw [if_neg he] at h
      rw [setPred_cons]
      by_cases hek : e.1 = k
      · have hkj : ¬ ((k, p).1 = j) := by
          show ¬ (k = j)
          rw [← hek]; exact he
        rw [if_pos hek, lookupPred_cons, if_neg hkj]
        exact ih h
      · rw [if_neg hek, lookupPred_cons, if_neg he]
        exact ih h

theorem keysDistinct_setPred {k : Nat} {p : Prediction} :
    ∀ {ps : List (Nat × Prediction)}, keysDistinct ps → keysDistinct (setPred k p ps) := by
  intro ps
  induction ps with
  | nil => intro h; exact h
  | cons e rest ih =>
    intro h
    obtain ⟨h1, h2⟩ := h
    rw [setPred_cons]
    by_cases he : e.1 = k
    · rw [if_pos he]
      refine ⟨?_, ih h2⟩
      show lookupPred k (setPred k p rest) = none
      exact lookupPred_setPred_none (he ▸ h1)
    · rw [if_neg he]
      exact ⟨lookupPred_setPred_none h1, ih h2⟩

/-- Claiming one unclaimed winning prediction removes exactly its tokens
from the unclaimed winning total. -/
theorem sumSide_setPred_claimed {k : Nat} {p : Prediction} {o : Bool} :
    ∀ {ps : List (Nat × Prediction)}, keysDistinct ps → lookupPred k ps = some p →
      p.prediction_type = o → p.claimed = false →
      p.tokens_received ≤ sumSide o ps ∧
        sumSide o (setPred k { p with claimed := true } ps)
          = sumSide o ps - p.tokens_received := by
  intro ps
  induction ps with
  | nil => intro _ h; simp [lookupPred] at h
  | cons e rest ih =>
    intro hd hl hto hcl
    obtain ⟨hd1, hd2⟩ := hd
    rw [lookupPred_cons] at hl
    by_cases he : e.1 = k
    · rw [if_pos he] at hl
      have hep : e.2 = p := by injection hl
      have hrest : setPred k { p with claimed := true } rest = rest :=
        setPred_of_lookup_none (he ▸ hd1)
      constructor
      · rw [sumSide_cons, hep, hto, hcl]
        simp
      · rw [setPred_cons, if_pos he, hrest, sumSide_cons, sumSide_cons, hep, hto, hcl]
        simp
    · rw [if_neg he] at hl
      obtain ⟨ihle, iheq⟩ := ih hd2 hl hto hcl
      constructor
      · rw [sumSide_cons]
        omega
      · rw [setPred_cons, if_neg he, sumSide_cons, sumSide_cons, iheq]
        omega

/-! ### Inversion lemmas for the instruction handlers -/

theorem initialize_market_ok_inv {now : Int} {cr ytv ntv mid : Nat} {q : String}
    {rt : Int} {L : Nat} {m : Market}
    (h : initialize_market now cr ytv ntv mid q rt L = .ok m) :
    0 < q.length ∧ q.length ≤ 256 ∧ now < rt ∧
      m = { market_id := mid
            question := q
            creator := cr
            created_at := now
            resolution_time := rt
            yes_pool := L / 2
            no_pool := L / 2
            total_liquidity := L
            resolved := false
            outcome := none
            yes_token_vault := ytv
            no_token_vault := ntv
            fee_collected := 0 } := by
  unfold initialize_market at h
  split at h
  case isTrue hq =>
    split at h
    case isTrue ht =>
      injection h with h
      exact ⟨hq.1, hq.2, ht, h.symm⟩
    case isFalse ht => exact absurd h (by simp)
  case isFalse hq => exact absurd h (by simp)

theorem place_prediction_ok_inv {now : Int} {m : Market} {pr mid : Nat} {ty : Bool}
    {a : Nat} {x : Market × Prediction}
    (h : place_prediction now m pr mid ty a = .ok x) :
    0 < a ∧ m.resolved = false ∧ now < m.resolution_time ∧
      0 < (if ty then amm_tokens_out m.yes_pool a else amm_tokens_out m.no_pool a) ∧
      x = ((if ty then { m with yes_pool := saturating_add m.yes_pool a }
            else { m with no_pool := saturating_add m.no_pool a }),
           { market_id := mid
             predictor := pr
             prediction_type := ty
             amount_deposited := a
             tokens_received :=
               if ty then amm_tokens_out m.yes_pool a else amm_tokens_out m.no_pool a
             created_at := now
             claimed := false }) := by
  cases ty with
  | false =>
    simp only [place_prediction, Bool.false_eq_true, if_false] at h ⊢
    split at h
    case isFalse ha => exact absurd h (by simp)
    case isTrue ha =>
      split at h
      case isTrue hres => exact absurd h (by simp)
      case isFalse hres =>
        split at h
        case isFalse ht => exact absurd h (by simp)
        case isTrue ht =>
          split at h
          case isFalse htok => exact absurd h (by simp)
          case isTrue htok =>
            injection h with h
            exact ⟨ha, Bool.eq_false_iff.mpr hres, ht, htok, h.symm⟩
  | true =>
    simp only [place_prediction, if_true] at h ⊢
    split at h
    case isFalse ha => exact absurd h (by simp)
    case isTrue ha =>
      split at h
      case isTrue hres => exact absurd h (by simp)
      case isFalse hres =>
        split at h
        case isFalse ht => exact absurd h (by simp)
        case isTrue ht =>
          split at h
          case isFalse htok => exact absurd h (by simp)
          case isTrue htok =>
            injection h with h
            exact ⟨ha, Bool.eq_false_iff.mpr hres, ht, htok, h.symm⟩

theorem resolve_market_ok_inv {now : Int} {m : Market} {admin : Nat} {oc : Bool}
    {m' : Market} (h : resolve_market now m admin oc = .ok m') :
    m.creator = admin ∧ m.resolved = false ∧ m.resolution_time ≤ now ∧
      m' = { m with resolved := true, outcome := some oc } := by
  unfold resolve_market at h
  split at h
  case isFalse hc => exact absurd h (by simp)
  case isTrue hc =>
    split at h
    case isTrue hres => exact absurd h (by simp)
    case isFalse hres =>
      split at h
      case isFalse ht => exact absurd h (by simp)
      case isTrue ht =>
        injection h with h
        exact ⟨hc, Bool.eq_false_iff.mpr hres, ht, h.symm⟩

theorem claim_reward_ok_inv {m : Market} {p : Prediction} {cl : Nat}
    {x : Prediction × Nat} (h : claim_reward m p cl = .ok x) :
    m.resolved = true ∧ p.predictor = cl ∧ p.claimed = false ∧
      ∃ o, m.outcome = some o ∧ p.prediction_type = o ∧
        0 < (if o then m.yes_pool else m.no_pool) ∧
        0 < u64cast (saturating_mul_u128 p.tokens_received
              (saturating_add m.yes_pool m.no_pool)
            / (if o then m.yes_pool else m.no_pool)) ∧
        x = ({ p with claimed := true },
             u64cast (saturating_mul_u128 p.tokens_received
                 (saturating_add m.yes_pool m.no_pool)
               / (if o then m.yes_pool else m.no_pool))) := by
  unfold claim_reward at h
  split at h
  case isFalse hres => exact absurd h (by simp)
  case isTrue hres =>
    split at h
    case isFalse hpr => exact absurd h (by simp)
    case isTrue hpr =>
      split at h
      case isTrue hcl => exact absurd h (by simp)
      case isFalse hcl =>
        split at h
        case h_1 => exact absurd h (by simp)
        case h_2 o ho =>
          split at h
          case isFalse hty => exact absurd h (by simp)
          case isTrue hty =>
            by_cases hW : 0 < (if o then m.yes_pool else m.no_pool)
            · rw [if_pos hW] at h
              by_cases hrw : 0 < u64cast (saturating_mul_u128 p.tokens_received
                  (saturating_add m.yes_pool m.no_pool) / (if o then m.yes_pool else m.no_pool))
              · rw [if_pos hrw] at h
                injection h with h
                exact ⟨hres, hpr, Bool.eq_false_iff.mpr hcl, o, ho, hty, hW, hrw, h.symm⟩
              · rw [if_neg hrw] at h
                simp at h
            · rw [if_neg hW] at h
              simp at h

theorem withdraw_fees_ok_inv {m : Market} {admin amt : Nat} {x : Market × Nat}
    (h : withdraw_fees m admin amt = .ok x) :
    m.creator = admin ∧ amt ≤ m.fee_collected ∧
      x = ({ m with fee_collected := saturating_sub m.fee_collected amt }, amt) := by
  unfold withdraw_fees at h
  split at h
  case isFalse hc => exact absurd h (by simp)
  case isTrue hc =>
    split at h
    case isFalse hf => exact absurd h (by simp)
    case isTrue hf =>
      injection h with h
      exact ⟨hc, hf, h.symm⟩

/-! ### Step-level inversion -/

theorem step_place_some {c : Chain} {now : Int} {pr : Nat} {ty : Bool} {a : Nat}
    {c' : Chain} (h : step c (.place now pr ty a) = some c') :
    lookupPred pr c.preds = none ∧
      ∃ m' pred, place_prediction now c.market pr c.market.market_id ty a = .ok (m', pred) ∧
        c' = { c with market := m'
                      preds := (pr, pred) :: c.preds
                      deposited := c.deposited + a } := by
  simp only [step] at h
  split at h
  next hs => exact absurd h (by simp)
  next hs =>
    have hnone : lookupPred pr c.preds = none := by
      cases hl : lookupPred pr c.preds with
      | none => rfl
      | some p => rw [hl] at hs; simp at hs
    split at h
    next => exact absurd h (by simp)
    next m' pred hok =>
      injection h with h
      exact ⟨hnone, m', pred, hok, h.symm⟩

theorem step_resolve_some {c : Chain} {now : Int} {admin : Nat} {oc : Bool}
    {c' : Chain} (h : step c (.resolve now admin oc) = some c') :
    ∃ m', resolve_market now c.market admin oc = .ok m' ∧ c' = { c with market := m' } := by
  simp only [step] at h
  split at h
  next => exact absurd h (by simp)
  next m' hok =>
    injection h with h
    exact ⟨m', hok, h.symm⟩

theorem step_claim_some {c : Chain} {cl : Nat} {c' : Chain}
    (h : step c (.claim cl) = some c') :
    ∃ pred pred' r, lookupPred cl c.preds = some pred ∧
      claim_reward c.market pred cl = .ok (pred', r) ∧
      c' = { c with preds := setPred cl pred' c.preds, paid := c.paid + r } := by
  simp only [step] at h
  split at h
  next => exact absurd h (by simp)
  next pred hlk =>
    split at h
    next => exact absurd h (by simp)
    next pred' r hok =>
      injection h with h
      exact ⟨pred, pred', r, hlk, hok, h.symm⟩

theorem step_withdraw_some {c : Chain} {admin amt : Nat} {c' : Chain}
    (h : step c (.withdraw admin amt) = some c') :
    ∃ m' r, withdraw_fees c.market admin amt = .ok (m', r) ∧ c' = { c with market := m' } := by
  simp only [step] at h
  split at h
  next => exact absurd h (by simp)
  next m' r hok =>
    injection h with h
    exact ⟨m', r, hok, h.symm⟩

/-! ### The conservation invariant -/

/-- Trace invariant tying pools, unclaimed winning tokens and total payout.
`L` is the market's `initial_liquidity`.  While the market is open nothing
has been paid and each side's unclaimed tokens are bounded by its pool;
after resolution the mixed bound
`paid * W + S * T ≤ T * W` (with `W` the winning pool, `T` the reservoir
and `S` the unclaimed winning tokens) drives the conservation argument. -/
def Inv (L : Nat) (c : Chain) : Prop :=
  keysDistinct c.preds ∧
  c.market.yes_pool + c.market.no_pool ≤ L + c.deposited ∧
  (c.market.resolved = false →
    c.paid = 0 ∧ sumSide true c.preds ≤ c.market.yes_pool ∧
      sumSide false c.preds ≤ c.market.no_pool) ∧
  (c.market.resolved = true →
    ∃ o, c.market.outcome = some o ∧
      c.paid * (if o then c.market.yes_pool else c.market.no_pool)
          + sumSide o c.preds * (c.market.yes_pool + c.market.no_pool)
        ≤ (c.market.yes_pool + c.market.no_pool)
            * (if o then c.market.yes_pool else c.market.no_pool) ∧
      ((if o then c.market.yes_pool else c.market.no_pool) = 0 → c.paid = 0))

theorem initChain_ok_inv {now : Int} {cr ytv ntv mid : Nat} {q : String} {rt : Int}
    {L : Nat} {c0 : Chain} (h : initChain now cr ytv ntv mid q rt L = .ok c0) :
    ∃ m, initialize_market now cr ytv ntv mid q rt L = .ok m ∧
      c0 = { market := m, preds := [], paid := 0, deposited := 0 } := by
  unfold initChain at h
  cases hm : initialize_market now cr ytv ntv mid q rt L with
  | error e => rw [hm] at h; simp [Except.map] at h
  | ok m =>
    rw [hm] at h
    simp only [Except.map] at h
    injection h with h
    exact ⟨m, rfl, h.symm⟩

theorem initChain_Inv {now : Int} {cr ytv ntv mid : Nat} {q : String} {rt : Int}
    {L : Nat} {c0 : Chain} (h : initChain now cr ytv ntv mid q rt L = .ok c0) :
    Inv L c0 ∧ c0.deposited = 0 := by
  obtain ⟨m, hm, hc0⟩ := initChain_ok_inv h
  obtain ⟨_, _, _, hmval⟩ := initialize_market_ok_inv hm
  subst hc0; subst hmval
  refine ⟨⟨trivial, ?_, ?_, ?_⟩, rfl⟩
  · show L / 2 + L / 2 ≤ L + 0
    omega
  · intro _
    exact ⟨rfl, Nat.zero_le _, Nat.zero_le _⟩
  · intro hf
    simp at hf

theorem step_preserves_Inv {L : Nat} {c c' : Chain} {op : Op}
    (hI : Inv L c) (hB : L + c.deposited + opDeposit op ≤ U64_MAX)
    (h : step c op = some c') :
    Inv L c' ∧ c'.deposited = c.deposited + opDeposit op := by
  obtain ⟨hdist, hpools, hopen, hres⟩ := hI
  cases op with
  | place now pr ty a =>
    obtain ⟨hfresh, m', pred, hok, hc'⟩ := step_place_some h
    obtain ⟨ha, hresolved, ht, htok, hx⟩ := place_prediction_ok_inv hok
    injection hx with hxm hxp
    have hBp : L + c.deposited + a ≤ U64_MAX := hB
    obtain ⟨hp0, hsy, hsn⟩ := hopen hresolved
    have hyle : c.market.yes_pool ≤ U64_MAX := by omega
    have hnle : c.market.no_pool ≤ U64_MAX := by omega
    subst hc'
    cases ty with
    | true =>
      rw [if_pos rfl] at hxm
      have hsat : saturating_add c.market.yes_pool a = c.market.yes_pool + a :=
        saturating_add_eq (by omega)
      have htle : amm_tokens_out c.market.yes_pool a ≤ a :=
        amm_tokens_out_le_amount hyle
      subst hxm; subst hxp
      refine ⟨⟨⟨hfresh, hdist⟩, ?_, ?_, ?_⟩, rfl⟩
      · show saturating_add c.market.yes_pool a + c.market.no_pool
            ≤ L + (c.deposited + a)
        rw [hsat]; omega
      · intro _
        refine ⟨hp0, ?_, ?_⟩
        · show sumSide true ((pr, _) :: c.preds) ≤ saturating_add c.market.yes_pool a
          rw [sumSide_cons, hsat]
          simp only [if_true]
          simp
          omega
        · show sumSide false ((pr, _) :: c.preds) ≤ c.market.no_pool
          rw [sumSide_cons]
          simp
          omega
      · intro hf
        exact absurd hf (by simp [hresolved])
    | false =>
      rw [if_neg (by simp)] at hxm
      have hsat : saturating_add c.market.no_pool a = c.market.no_pool + a :=
        saturating_add_eq (by omega)
      have htle : amm_tokens_out c.market.no_pool a ≤ a :=
        amm_tokens_out_le_amount hnle
      subst hxm; subst hxp
      refine ⟨⟨⟨hfresh, hdist⟩, ?_, ?_, ?_⟩, rfl⟩
      · show c.market.yes_pool + saturating_add c.market.no_pool a
            ≤ L + (c.deposited + a)
        rw [hsat]; omega
      · intro _
        refine ⟨hp0, ?_, ?_⟩
        · show sumSide true ((pr, _) :: c.preds) ≤ c.market.yes_pool
          rw [sumSide_cons]
          simp
          omega
        · show sumSide false ((pr, _) :: c.preds) ≤ saturating_add c.market.no_pool a
          rw [sumSide_cons, hsat]
          simp
          omega
      · intro hf
        exact absurd hf (by simp [hresolved])
  | resolve now admin oc =>
    obtain ⟨m', hok, hc'⟩ := step_resolve_some h
    obtain ⟨hcr, hresolved, ht, hm'⟩ := resolve_market_ok_inv hok
    obtain ⟨hp0, hsy, hsn⟩ := hopen hresolved
    subst hc'; subst hm'
    refine ⟨⟨hdist, by simpa using hpools, ?_, ?_⟩, rfl⟩
    · intro hf
      simp at hf
    · intro _
      refine ⟨oc, by simp, ?_, ?_⟩
      · show c.paid * (if oc then c.market.yes_pool else c.market.no_pool)
            + sumSide oc c.preds * (c.market.yes_pool + c.market.no_pool)
          ≤ (c.market.yes_pool + c.market.no_pool)
              * (if oc then c.market.yes_pool else c.market.no_pool)
        rw [hp0, Nat.zero_mul, Nat.zero_add]
        have hSW : sumSide oc c.preds ≤ (if oc then c.market.yes_pool else c.market.no_pool) := by
          cases oc with
          | true => simpa using hsy
          | false => simpa using hsn
        calc sumSide oc c.preds * (c.market.yes_pool + c.market.no_pool)
            ≤ (if oc then c.market.yes_pool else c.market.no_pool)
                * (c.market.yes_pool + c.market.no_pool) := Nat.mul_le_mul_right _ hSW
        _ = (c.market.yes_pool + c.market.no_pool)
                * (if oc then c.market.yes_pool else c.market.no_pool) := Nat.mul_comm _ _
      · intro _
        exact hp0
  | claim cl =>
    obtain ⟨pred, pred', r, hlk, hok, hc'⟩ := step_claim_some h
    obtain ⟨hresolved, hpr, hcl, o, ho, hty, hW, hrpos, hx⟩ := claim_reward_ok_inv hok
    injection hx with hxp hxr
    obtain ⟨o', ho', hmix, hz⟩ := hres hresolved
    have hoo : o' = o := by
      rw [ho] at ho'
      injection ho' with hv
      exact hv.symm
    rw [hoo] at hmix hz
    obtain ⟨hts, hsum⟩ := sumSide_setPred_claimed hdist hlk hty hcl
    subst hc'; subst hxp; subst hxr
    have hT : saturating_add c.market.yes_pool c.market.no_pool
        ≤ c.market.yes_pool + c.market.no_pool := saturating_add_le _ _
    have hrle : u64cast (saturating_mul_u128 pred.tokens_received
          (saturating_add c.market.yes_pool c.market.no_pool)
        / (if o then c.market.yes_pool else c.market.no_pool))
        ≤ pred.tokens_received * (c.market.yes_pool + c.market.no_pool)
            / (if o then c.market.yes_pool else c.market.no_pool) := by
      calc u64cast (saturating_mul_u128 pred.tokens_received
            (saturating_add c.market.yes_pool c.market.no_pool)
          / (if o then c.market.yes_pool else c.market.no_pool))
          ≤ saturating_mul_u128 pred.tokens_received
              (saturating_add c.market.yes_pool c.market.no_pool)
            / (if o then c.market.yes_pool else c.market.no_pool) := u64cast_le _
      _ ≤ pred.tokens_received * (saturating_add c.market.yes_pool c.market.no_pool)
            / (if o then c.market.yes_pool else c.market.no_pool) :=
          Nat.div_le_div_right (saturating_mul_u128_le _ _)
      _ ≤ pred.tokens_received * (c.market.yes_pool + c.market.no_pool)
            / (if o then c.market.yes_pool else c.market.no_pool) :=
          Nat.div_le_div_right (Nat.mul_le_mul_left _ hT)
    refine ⟨⟨keysDistinct_setPred hdist, by simpa using hpools, ?_, ?_⟩, rfl⟩
    · intro hf
      rw [hresolved] at hf
      simp at hf
    · intro _
      refine ⟨o, ho, ?_, ?_⟩
      · show (c.paid + _) * (if o then c.market.yes_pool else c.market.no_pool)
            + sumSide o (setPred cl { pred with claimed := true } c.preds)
              * (c.market.yes_pool + c.market.no_pool)
          ≤ (c.market.yes_pool + c.market.no_pool)
              * (if o then c.market.yes_pool else c.market.no_pool)
        rw [hsum, Nat.add_mul, Nat.sub_mul]
        have h1 : u64cast (saturating_mul_u128 pred.tokens_received
              (saturating_add c.market.yes_pool c.market.no_pool)
            / (if o then c.market.yes_pool else c.market.no_pool))
            * (if o then c.market.yes_pool else c.market.no_pool)
            ≤ pred.tokens_received * (c.market.yes_pool + c.market.no_pool) := by
          calc u64cast (saturating_mul_u128 pred.tokens_received
                (saturating_add c.market.yes_pool c.market.no_pool)
              / (if o then c.market.yes_pool else c.market.no_pool))
              * (if o then c.market.yes_pool else c.market.no_pool)
              ≤ pred.tokens_received * (c.market.yes_pool + c.market.no_pool)
                  / (if o then c.market.yes_pool else c.market.no_pool)
                * (if o then c.market.yes_pool else c.market.no_pool) :=
              Nat.mul_le_mul_right _ hrle
          _ ≤ pred.tokens_received * (c.market.yes_pool + c.market.no_pool) :=
              Nat.div_mul_le_self _ _
        have h2 : pred.tokens_received * (c.market.yes_pool + c.market.no_pool)
            ≤ sumSide o c.preds * (c.market.yes_pool + c.market.no_pool) :=
          Nat.mul_le_mul_right _ hts
        omega
      · show (if o then c.market.yes_pool else c.market.no_pool) = 0 → c.paid + _ = 0
        intro h0
        omega
  | withdraw admin amt =>
    obtain ⟨m', r, hok, hc'⟩ := step_withdraw_some h
    obtain ⟨hcr, hamt, hx⟩ := withdraw_fees_ok_inv hok
    injection hx with hxm hxr
    subst hc'; subst hxm
    refine ⟨⟨hdist, by simpa using hpools, ?_, ?_⟩, rfl⟩
    · intro hf
      obtain ⟨hp0, hsy, hsn⟩ := hopen (by simpa using hf)
      exact ⟨hp0, by simpa using hsy, by simpa using hsn⟩
    · intro hf
      obtain ⟨o, ho, hmix, hz⟩ := hres (by simpa using hf)
      exact ⟨o, by simpa using ho, by simpa using hmix, by simpa using hz⟩

theorem run_preserves_Inv {L : Nat} : ∀ (ops : List Op) (c : Chain), Inv L c →
    L + c.deposited + sumDeposits ops ≤ U64_MAX →
    Inv L (run c ops) ∧ (run c ops).deposited ≤ c.deposited + sumDeposits ops := by
  intro ops
  induction ops with
  | nil =>
    intro c hI _
    exact ⟨hI, Nat.le_refl _⟩
  | cons op rest ih =>
    intro c hI hB
    have hsum : sumDeposits (op :: rest) = opDeposit op + sumDeposits rest := by
      simp [sumDeposits]
    cases hstep : step c op with
    | none =>
      have hgd : (step c op).getD c = c := by rw [hstep]; rfl
      have hrun : run c (op :: rest) = run c rest := by
        show run ((step c op).getD c) rest = run c rest
        rw [hgd]
      have hB' : L + c.deposited + sumDeposits rest ≤ U64_MAX := by omega
      obtain ⟨h1, h2⟩ := ih c hI hB'
      rw [hrun]
      exact ⟨h1, by omega⟩
    | some c' =>
      have hgd : (step c op).getD c = c' := by rw [hstep]; rfl
      have hrun : run c (op :: rest) = run c' rest := by
        show run ((step c op).getD c) rest = run c' rest
        rw [hgd]
      have hB1 : L + c.deposited + opDeposit op ≤ U64_MAX := by omega
      obtain ⟨hI', hdep⟩ := step_preserves_Inv hI hB1 hstep
      have hB' : L + c'.deposited + sumDeposits rest ≤ U64_MAX := by omega
      obtain ⟨h1, h2⟩ := ih c' hI' hB'
      rw [hrun]
      exact ⟨h1, by omega⟩

/-- Conservation: the invariant bounds total payout by the reservoir. -/
theorem Inv_paid_le {L : Nat} {c : Chain} (hI : Inv L c) :
    c.paid ≤ c.market.yes_pool + c.market.no_pool := by
  obtain ⟨_, _, hopen, hres⟩ := hI
  cases hr : c.market.resolved with
  | false => rw [(hopen hr).1]; exact Nat.zero_le _
  | true =>
    obtain ⟨o, ho, hmix, hz⟩ := hres hr
    by_cases hW : (if o then c.market.yes_pool else c.market.no_pool) = 0
    · rw [hz hW]; exact Nat.zero_le _
    · have hWpos : 0 < (if o then c.market.yes_pool else c.market.no_pool) :=
        Nat.pos_of_ne_zero hW
      have h1 : c.paid * (if o then c.market.yes_pool else c.market.no_pool)
          ≤ (c.market.yes_pool + c.market.no_pool)
              * (if o then c.market.yes_pool else c.market.no_pool) :=
        le_trans (Nat.le_add_right _ _) hmix
      exact Nat.le_of_mul_le_mul_right h1 hWpos

/-! ### Frame lemmas: resolution is frozen, fees stay zero -/

theorem step_preserves_resolution {c c' : Chain} {op : Op}
    (h : step c op = some c') (hr : c.market.resolved = true) :
    c'.market.resolved = true ∧ c'.market.outcome = c.market.outcome := by
  cases op with
  | place now pr ty a =>
    obtain ⟨_, m', pred, hok, hc'⟩ := step_place_some h
    obtain ⟨_, hresolved, _⟩ := place_prediction_ok_inv hok
    rw [hr] at hresolved
    exact Bool.noConfusion hresolved
  | resolve now admin oc =>
    obtain ⟨m', hok, hc'⟩ := step_resolve_some h
    obtain ⟨_, hresolved, _⟩ := resolve_market_ok_inv hok
    rw [hr] at hresolved
    exact Bool.noConfusion hresolved
  | claim cl =>
    obtain ⟨pred, pred', r, hlk, hok, hc'⟩ := step_claim_some h
    subst hc'
    exact ⟨hr, rfl⟩
  | withdraw admin amt =>
    obtain ⟨m', r, hok, hc'⟩ := step_withdraw_some h
    obtain ⟨_, _, hx⟩ := withdraw_fees_ok_inv hok
    injection hx with hxm hxr
    subst hc'; subst hxm
    exact ⟨by simpa using hr, by simp⟩

theorem run_preserves_resolution {ops : List Op} : ∀ {c : Chain},
    c.market.resolved = true →
    (run c ops).market.resolved = true ∧ (run c ops).market.outcome = c.market.outcome := by
  induction ops with
  | nil => intro c h; exact ⟨h, rfl⟩
  | cons op rest ih =>
    intro c h
    show (run ((step c op).getD c) rest).market.resolved = true ∧
      (run ((step c op).getD c) rest).market.outcome = c.market.outcome
    cases hstep : step c op with
    | none => exact ih h
    | some c' =>
      obtain ⟨h1, h2⟩ := step_preserves_resolution hstep h
      obtain ⟨h3, h4⟩ := ih h1
      exact ⟨h3, h4.trans h2⟩

theorem step_preserves_fee_zero {c c' : Chain} {op : Op}
    (h : step c op = some c') (hf : c.market.fee_collected = 0) :
    c'.market.fee_collected = 0 := by
  cases op with
  | place now pr ty a =>
    obtain ⟨_, m', pred, hok, hc'⟩ := step_place_some h
    obtain ⟨_, _, _, _, hx⟩ := place_prediction_ok_inv hok
    injection hx with hxm hxp
    subst hc'; subst hxm
    cases ty with
    | true => simpa using hf
    | false => simpa using hf
  | resolve now admin oc =>
    obtain ⟨m', hok, hc'⟩ := step_resolve_some h
    obtain ⟨_, _, _, hm'⟩ := resolve_market_ok_inv hok
    subst hc'; subst hm'
    simpa using hf
  | claim cl =>
    obtain ⟨pred, pred', r, hlk, hok, hc'⟩ := step_claim_some h
    subst hc'
    exact hf
  | withdraw admin amt =>
    obtain ⟨m', r, hok, hc'⟩ := step_withdraw_some h
    obtain ⟨_, hamt, hx⟩ := withdraw_fees_ok_inv hok
    injection hx with hxm hxr
    subst hc'; subst hxm
    show saturating_sub c.market.fee_collected amt = 0
    rw [hf] at hamt ⊢
    simp [saturating_sub]

theorem run_preserves_fee_zero {ops : List Op} : ∀ {c : Chain},
    c.market.fee_collected = 0 → (run c ops).market.fee_collected = 0 := by
  induction ops with
  | nil => intro c h; exact h
  | cons op rest ih =>
    intro c h
    show (run ((step c op).getD c) rest).market.fee_collected = 0
    cases hstep : step c op with
    | none => exact ih h
    | some c' => exact ih (step_preserves_fee_zero hstep h)

deriving instance DecidableEq for Except

/-- With `u64`-sized inputs the AMM output is the plain floor formula over
the saturating denominator: the final `as u64` cast never truncates. -/
theorem amm_tokens_out_closed {pool a : Nat} (hp : pool ≤ U64_MAX) (ha : a ≤ U64_MAX) :
    amm_tokens_out pool a = a * pool / saturating_add pool a := by
  unfold amm_tokens_out
  rw [saturating_mul_u128_eq ha hp]
  apply u64cast_eq_of_le
  rcases Nat.eq_zero_or_pos pool with h0 | h0
  · simp [h0]
  · have hden : pool ≤ saturating_add pool a := le_saturating_add_left a hp
    calc a * pool / saturating_add pool a ≤ a * pool / pool := Nat.div_le_div_left hden h0
    _ = a := Nat.mul_div_cancel a h0
    _ ≤ U64_MAX := ha

/-! ### Claim theorems -/

/-- Claim C2: on a resolved market, for a winning unclaimed position claimed
by its owner whose recorded tokens do not exceed the winning pool (true of
every position this program ever writes, since `tokens_received < amount`
and pools only grow), `claim_reward` pays exactly
`floor(tokens_received * T / W)` with `T` the saturating pool sum and `W`
the winning pool, and fails with `NoReward` exactly when that floor is zero
— in particular whenever `W = 0`, since then the quotient is zero. -/
theorem claim_reward_formula (m : Market) (p : Prediction) (cl : Nat) (o : Bool)
    (hy : m.yes_pool ≤ U64_MAX) (hn : m.no_pool ≤ U64_MAX)
    (hres : m.resolved = true) (ho : m.outcome = some o) (hpr : p.predictor = cl)
    (hcl : p.claimed = false) (hty : p.prediction_type = o)
    (ht : p.tokens_received ≤ (if o then m.yes_pool else m.no_pool)) :
    claim_reward m p cl =
      if p.tokens_received * saturating_add m.yes_pool m.no_pool
          / (if o then m.yes_pool else m.no_pool) = 0
      then .error .NoReward
      else .ok ({ p with claimed := true },
        p.tokens_received * saturating_add m.yes_pool m.no_pool
          / (if o then m.yes_pool else m.no_pool)) := by
  have hWle : (if o then m.yes_pool else m.no_pool) ≤ U64_MAX := by
    cases o with
    | true => simpa using hy
    | false => simpa using hn
  have htM : p.tokens_received ≤ U64_MAX := le_trans ht hWle
  have hTle : saturating_add m.yes_pool m.no_pool ≤ U64_MAX := saturating_add_le_max _ _
  have hmul : saturating_mul_u128 p.tokens_received (saturating_add m.yes_pool m.no_pool)
      = p.tokens_received * saturating_add m.yes_pool m.no_pool :=
    saturating_mul_u128_eq htM hTle
  unfold claim_reward
  rw [if_pos hres, if_pos hpr, if_neg (by simp [hcl]), ho]
  dsimp only
  rw [if_pos hty]
  by_cases hW : 0 < (if o then m.yes_pool else m.no_pool)
  · rw [if_pos hW, hmul]
    have hcast : u64cast (p.tokens_received * saturating_add m.yes_pool m.no_pool
        / (if o then m.yes_pool else m.no_pool))
        = p.tokens_received * saturating_add m.yes_pool m.no_pool
            / (if o then m.yes_pool else m.no_pool) := by
      apply u64cast_eq_of_le
      calc p.tokens_received * saturating_add m.yes_pool m.no_pool
          / (if o then m.yes_pool else m.no_pool)
          ≤ (if o then m.yes_pool else m.no_pool) * saturating_add m.yes_pool m.no_pool
            / (if o then m.yes_pool else m.no_pool) :=
          Nat.div_le_div_right (Nat.mul_le_mul_right _ ht)
      _ = saturating_add m.yes_pool m.no_pool := by
          rw [Nat.mul_comm, Nat.mul_div_cancel _ hW]
      _ ≤ U64_MAX := hTle
    rw [hcast]
    rcases Nat.eq_zero_or_pos (p.tokens_received * saturating_add m.yes_pool m.no_pool
        / (if o then m.yes_pool else m.no_pool)) with hz | hz
    · rw [hz]
      simp
    · have hne : ¬(p.tokens_received * saturating_add m.yes_pool m.no_pool
          / (if o then m.yes_pool else m.no_pool) = 0) := by omega
      rw [if_pos hz, if_neg hne]
  · have hW0 : (if o then m.yes_pool else m.no_pool) = 0 := by omega
    rw [if_neg hW, hW0]
    simp

/-- Resolved market of the spec's §8 claim example (`yes_pool = 1000`,
`no_pool = 500`, outcome YES). -/
def c2Market : Market where
  market_id := 7
  question := "q"
  creator := 1
  created_at := 0
  resolution_time := 10
  yes_pool := 1000
  no_pool := 500
  total_liquidity := 1500
  resolved := true
  outcome := some true
  yes_token_vault := 0
  no_token_vault := 0
  fee_collected := 0

/-- Winning position with `tokens_received = 90` for the C2 witness. -/
def c2Prediction : Prediction where
  market_id := 7
  predictor := 9
  prediction_type := true
  amount_deposited := 100
  tokens_received := 90
  created_at := 0
  claimed := false

theorem claim_reward_formula_witness :
    claim_reward c2Market c2Prediction 9
      = .ok ({ c2Prediction with claimed := true }, 135) := by
  have h := claim_reward_formula c2Market c2Prediction 9 true (by decide) (by decide)
    rfl rfl rfl rfl rfl (by decide)
  rw [h]
  rfl

/-- Claim C3: an `amount > 0` deposit on an open, unexpired market computes
`tokens_out = floor(amount * P / (P ⊕ amount))` (with `⊕` the saturating
add, and wide intermediates that never overflow for `u64` inputs), fails
with `InsufficientOutput` exactly when `tokens_out = 0` (returning no new
state), and otherwise adds `amount` to the chosen pool and records the
position. -/
theorem place_prediction_formula (now : Int) (m : Market) (pr mid : Nat) (ty : Bool)
    (a : Nat) (hy : m.yes_pool ≤ U64_MAX) (hn : m.no_pool ≤ U64_MAX)
    (haM : a ≤ U64_MAX) (ha : 0 < a) (hres : m.resolved = false)
    (ht : now < m.resolution_time) :
    place_prediction now m pr mid ty a =
      if a * (if ty then m.yes_pool else m.no_pool)
          / saturating_add (if ty then m.yes_pool else m.no_pool) a = 0
      then .error .InsufficientOutput
      else .ok ((if ty then { m with yes_pool := saturating_add m.yes_pool a }
                 else { m with no_pool := saturating_add m.no_pool a }),
        { market_id := mid
          predictor := pr
          prediction_type := ty
          amount_deposited := a
          tokens_received := a * (if ty then m.yes_pool else m.no_pool)
            / saturating_add (if ty then m.yes_pool else m.no_pool) a
          created_at := now
          claimed := false }) := by
  have hcy : amm_tokens_out m.yes_pool a = a * m.yes_pool / saturating_add m.yes_pool a :=
    amm_tokens_out_closed hy haM
  have hcn : amm_tokens_out m.no_pool a = a * m.no_pool / saturating_add m.no_pool a :=
    amm_tokens_out_closed hn haM
  have hpull : (if ty then a * m.yes_pool / saturating_add m.yes_pool a
        else a * m.no_pool / saturating_add m.no_pool a)
      = a * (if ty then m.yes_pool else m.no_pool)
          / saturating_add (if ty then m.yes_pool else m.no_pool) a := by
    cases ty with
    | true => simp
    | false => simp
  unfold place_prediction
  rw [if_pos ha, if_neg (by simp [hres]), if_pos ht, hcy, hcn, hpull]
  rcases Nat.eq_zero_or_pos (a * (if ty then m.yes_pool else m.no_pool)
      / saturating_add (if ty then m.yes_pool else m.no_pool) a) with hz | hz
  · rw [hz]
    simp
  · have hne : ¬(a * (if ty then m.yes_pool else m.no_pool)
        / saturating_add (if ty then m.yes_pool else m.no_pool) a = 0) := by omega
    rw [if_pos hz, if_neg hne]

/-- Open market with `yes_pool = 900`, `no_pool = 100` (spec §8 example). -/
def c3Market : Market where
  market_id := 1
  question := "q"
  creator := 1
  created_at := 0
  resolution_time := 10
  yes_pool := 900
  no_pool := 100
  total_liquidity := 1000
  resolved := false
  outcome := none
  yes_token_vault := 0
  no_token_vault := 0
  fee_collected := 0

/-- Open market seeded with `initial_liquidity = 0` (zero-zero pools). -/
def c3MarketZero : Market where
  market_id := 2
  question := "q"
  creator := 1
  created_at := 0
  resolution_time := 10
  yes_pool := 0
  no_pool := 0
  total_liquidity := 0
  resolved := false
  outcome := none
  yes_token_vault := 0
  no_token_vault := 0
  fee_collected := 0

theorem place_prediction_formula_witness :
    place_prediction 0 c3MarketZero 7 2 true 1000 = .error .InsufficientOutput ∧
      place_prediction 0 c3Market 7 1 true 100
        = .ok ({ c3Market with yes_pool := 1000 },
          { market_id := 1
            predictor := 7
            prediction_type := true
            amount_deposited := 100
            tokens_received := 90
            created_at := 0
            claimed := false }) := by
  constructor
  · have h := place_prediction_formula 0 c3MarketZero 7 2 true 1000 (by decide) (by decide)
      (by decide) (by decide) rfl (by decide)
    rw [h]
    rfl
  · have h := place_prediction_formula 0 c3Market 7 1 true 100 (by decide) (by decide)
      (by decide) (by decide) rfl (by decide)
    rw [h]
    rfl

/-- Claim C4: a successful `claim_reward` marks the position claimed, and a
second `claim_reward` on the resulting position fails with `AlreadyClaimed`
(an error result carries no state change and moves no funds in this
embedding). -/
theorem claim_reward_no_double (m : Market) (p p' : Prediction) (cl r : Nat)
    (h : claim_reward m p cl = .ok (p', r)) :
    p'.claimed = true ∧ claim_reward m p' cl = .error .AlreadyClaimed := by
  obtain ⟨hres, hpr, hcl, o, ho, hty, hW, hrpos, hx⟩ := claim_reward_ok_inv h
  injection hx with hxp hxr
  subst hxp
  refine ⟨rfl, ?_⟩
  unfold claim_reward
  rw [if_pos hres, if_pos (show ({ p with claimed := true } : Prediction).predictor = cl
    from hpr), if_pos (show ({ p with claimed := true } : Prediction).claimed = true from rfl)]

/-- Resolved market for the C4 witness. -/
def c4Market : Market where
  market_id := 3
  question := "q"
  creator := 1
  created_at := 0
  resolution_time := 10
  yes_pool := 1000
  no_pool := 500
  total_liquidity := 1500
  resolved := true
  outcome := some true
  yes_token_vault := 0
  no_token_vault := 0
  fee_collected := 0

/-- Unclaimed winning position for the C4 witness. -/
def c4Prediction : Prediction where
  market_id := 3
  predictor := 7
  prediction_type := true
  amount_deposited := 100
  tokens_received := 90
  created_at := 0
  claimed := false

theorem claim_reward_no_double_witness :
    ({ c4Prediction with claimed := true } : Prediction).claimed = true ∧
      claim_reward c4Market { c4Prediction with claimed := true } 7
        = .error .AlreadyClaimed :=
  claim_reward_no_double c4Market c4Prediction { c4Prediction with claimed := true }
    7 135 (by rfl)

/-- On an already-resolved market `resolve_market` always fails, but the
creator check runs first: non-creators get `Unauthorized`. -/
theorem resolve_market_resolved_error {now : Int} {m : Market} {admin : Nat}
    {oc : Bool} (hr : m.resolved = true) :
    resolve_market now m admin oc =
      .error (if m.creator = admin then .MarketAlreadyResolved else .Unauthorized) := by
  unfold resolve_market
  by_cases hc : m.creator = admin
  · rw [if_pos hc, if_pos hr, if_pos hc]
  · rw [if_neg hc, if_neg hc]

/-- Open market used to build the C5 scenario. -/
def c5MarketOpen : Market where
  market_id := 4
  question := "q"
  creator := 1
  created_at := 0
  resolution_time := 10
  yes_pool := 500
  no_pool := 500
  total_liquidity := 1000
  resolved := false
  outcome := none
  yes_token_vault := 0
  no_token_vault := 0
  fee_collected := 0

/-- The C5 market after a successful `resolve_market` with outcome YES. -/
def c5Market : Market where
  market_id := 4
  question := "q"
  creator := 1
  created_at := 0
  resolution_time := 10
  yes_pool := 500
  no_pool := 500
  total_liquidity := 1000
  resolved := true
  outcome := some true
  yes_token_vault := 0
  no_token_vault := 0
  fee_collected := 0

/-- Claim C5 counterexample: after a successful resolution, a second
`resolve_market` call by a non-creator (caller 2, creator 1) fails with
`Unauthorized`, not `MarketAlreadyResolved` — the creator check runs before
the resolved check. -/
theorem resolve_market_write_once_counterexample :
    resolve_market 15 c5MarketOpen 1 true = .ok c5Market ∧
      resolve_market 20 c5Market 2 false = .error .Unauthorized ∧
      resolve_market 20 c5Market 2 false ≠ .error .MarketAlreadyResolved := by
  refine ⟨by rfl, by rfl, by decide⟩

/-- Claim C5 (amended): a successful `resolve_market` sets `resolved` and
the outcome irrevocably; every subsequent `resolve_market` call fails —
with `MarketAlreadyResolved` when the caller is the creator and
`Unauthorized` otherwise — and no request sequence ever changes the stored
outcome or clears `resolved`. -/
theorem resolve_market_write_once (now now' : Int) (m m' : Market)
    (admin admin' : Nat) (oc oc' : Bool)
    (h : resolve_market now m admin oc = .ok m') :
    m'.resolved = true ∧ m'.outcome = some oc ∧
      resolve_market now' m' admin' oc' =
        .error (if m'.creator = admin' then .MarketAlreadyResolved else .Unauthorized) ∧
      ∀ (c : Chain) (ops : List Op), c.market = m' →
        (run c ops).market.resolved = true ∧ (run c ops).market.outcome = some oc := by
  obtain ⟨hcr, hres, ht, hm'⟩ := resolve_market_ok_inv h
  subst hm'
  refine ⟨rfl, rfl, resolve_market_resolved_error rfl, ?_⟩
  intro c ops hc
  have hr : c.market.resolved = true := by rw [hc]
  obtain ⟨h1, h2⟩ := @run_preserves_resolution ops c hr
  refine ⟨h1, ?_⟩
  rw [h2, hc]

/-- Chain holding the resolved C5 market. -/
def c5Chain : Chain := { market := c5Market, preds := [], paid := 0, deposited := 0 }

theorem resolve_market_write_once_witness :
    resolve_market 20 c5Market 2 false = .error .Unauthorized ∧
      (run c5Chain [Op.place 30 7 true 5, Op.resolve 30 1 false]).market.outcome
        = some true := by
  have h := resolve_market_write_once 15 20 c5MarketOpen c5Market 1 2 true false (by rfl)
  constructor
  · rw [h.2.2.1]
    rfl
  · exact (h.2.2.2 c5Chain [Op.place 30 7 true 5, Op.resolve 30 1 false] rfl).2

/-- Open market whose deadline (5) has passed at call time 10, for C6. -/
def c6Market : Market where
  market_id := 6
  question := "q"
  creator := 1
  created_at := 0
  resolution_time := 5
  yes_pool := 500
  no_pool := 500
  total_liquidity := 1000
  resolved := false
  outcome := none
  yes_token_vault := 0
  no_token_vault := 0
  fee_collected := 0

/-- Claim C6 counterexample: on an unresolved market past its deadline, a
call with `amount = 0` fails with `InvalidAmount`, not `MarketExpired` —
the amount check runs before the deadline check. -/
theorem place_prediction_expired_counterexample :
    c6Market.resolved = false ∧ c6Market.resolution_time ≤ 10 ∧
      place_prediction 10 c6Market 7 6 true 0 = .error .InvalidAmount ∧
      place_prediction 10 c6Market 7 6 true 0 ≠ .error .MarketExpired := by
  refine ⟨rfl, by decide, by rfl, by decide⟩

/-- Claim C6 (amended): for `amount > 0`, a deposit on an unresolved market
at or after `resolution_time` fails with `MarketExpired` (state unchanged),
even though `resolve_market` has not been called; and a deposit succeeds
only while `resolved = false` and the call time is strictly before
`resolution_time`. -/
theorem place_prediction_expired (now : Int) (m : Market) (pr mid : Nat) (ty : Bool)
    (a : Nat) :
    (0 < a → m.resolved = false → m.resolution_time ≤ now →
      place_prediction now m pr mid ty a = .error .MarketExpired) ∧
    (∀ x, place_prediction now m pr mid ty a = .ok x →
      m.resolved = false ∧ now < m.resolution_time) := by
  constructor
  · intro ha hres ht
    have hnt : ¬(now < m.resolution_time) := by omega
    unfold place_prediction
    rw [if_pos ha, if_neg (by simp [hres]), if_neg hnt]
  · intro x hx
    obtain ⟨_, h1, h2, _, _⟩ := place_prediction_ok_inv hx
    exact ⟨h1, h2⟩

theorem place_prediction_expired_witness :
    place_prediction 10 c6Market 7 6 true 100 = .error .MarketExpired :=
  (place_prediction_expired 10 c6Market 7 6 true 100).1 (by decide) rfl (by decide)

/-- Market created with `initial_liquidity = 3`: both pools get
`floor(3/2) = 1` and one unit vanishes. -/
def c7Market : Market where
  market_id := 5
  question := "q"
  creator := 1
  created_at := 0
  resolution_time := 10
  yes_pool := 1
  no_pool := 1
  total_liquidity := 3
  resolved := false
  outcome := none
  yes_token_vault := 0
  no_token_vault := 0
  fee_collected := 0

/-- Claim C7 counterexample: with `initial_liquidity = 3` the source sets
`yes_pool = floor(3/2) = 1`, not `3 - no_pool = 2`, and the pool sum is 2,
not 3 — the odd remainder is dropped, not held by `yes_pool`. -/
theorem initialize_market_split_counterexample :
    initialize_market 0 1 0 0 5 "q" 10 3 = .ok c7Market ∧
      c7Market.no_pool = 3 / 2 ∧
      ¬(c7Market.yes_pool = 3 - c7Market.no_pool) ∧
      ¬(c7Market.yes_pool + c7Market.no_pool = 3) := by
  refine ⟨by rfl, rfl, by decide, by decide⟩

/-- Claim C7 (amended): `initialize_market` assigns `floor(L/2)` to *both*
pools, so `yes_pool = no_pool = floor(L/2)` and
`yes_pool + no_pool = L - L % 2`: for odd seeds the remainder is recorded
nowhere (it is not held by `yes_pool`). -/
theorem initialize_market_split (now : Int) (cr ytv ntv mid : Nat) (q : String)
    (rt : Int) (L : Nat) (m : Market)
    (h : initialize_market now cr ytv ntv mid q rt L = .ok m) :
    m.yes_pool = L / 2 ∧ m.no_pool = L / 2 ∧ m.yes_pool + m.no_pool = L - L % 2 := by
  obtain ⟨_, _, _, hm⟩ := initialize_market_ok_inv h
  subst hm
  refine ⟨rfl, rfl, ?_⟩
  show L / 2 + L / 2 = L - L % 2
  omega

/-- Market created with the odd seed `initial_liquidity = 7`. -/
def c7MarketOdd : Market where
  market_id := 8
  question := "q"
  creator := 1
  created_at := 0
  resolution_time := 10
  yes_pool := 3
  no_pool := 3
  total_liquidity := 7
  resolved := false
  outcome := none
  yes_token_vault := 0
  no_token_vault := 0
  fee_collected := 0

theorem initialize_market_split_witness :
    c7MarketOdd.yes_pool = 7 / 2 ∧ c7MarketOdd.no_pool = 7 / 2 ∧
      c7MarketOdd.yes_pool + c7MarketOdd.no_pool = 7 - 7 % 2 :=
  initialize_market_split 0 1 0 0 8 "q" 10 7 c7MarketOdd (by rfl)

/-- Claim C8 counterexample: with the pool fixed at `P = 100`, raising the
deposit from 1 to 100 raises `tokens_out` from 0 to 50 — the output is not
strictly decreasing in the amount. -/
theorem amm_diminishing_counterexample :
    (1 : Nat) < 100 ∧ amm_tokens_out 100 1 < amm_tokens_out 100 100 := by
  decide

/-- Claim C8 (amended): for a fixed pool `P > 0`, `tokens_out` is monotone
*non-decreasing* in the deposit amount (the marginal price worsens, but the
absolute output grows towards `P`), and every valid deposit satisfies
`tokens_out < P + amount`. -/
theorem amm_diminishing_returns (P a b : Nat) (hP : 0 < P) (hPm : P ≤ U64_MAX)
    (ha : 0 < a) (hab : a ≤ b) (hb : b ≤ U64_MAX) :
    amm_tokens_out P a ≤ amm_tokens_out P b ∧ amm_tokens_out P a < P + a := by
  refine ⟨amm_tokens_out_mono hPm hab hb, ?_⟩
  have h1 : amm_tokens_out P a ≤ a := amm_tokens_out_le_amount hPm
  omega

theorem amm_diminishing_returns_witness :
    amm_tokens_out 1000 100 ≤ amm_tokens_out 1000 200 ∧
      amm_tokens_out 1000 100 < 1000 + 100 :=
  amm_diminishing_returns 1000 100 200 (by decide) (by decide) (by decide)
    (by decide) (by decide)

/-- Market seeded with `initial_liquidity = u64::MAX` for the C1
counterexample (pools saturate under huge deposits). -/
def c1Market : Market where
  market_id := 1
  question := "q"
  creator := 1
  created_at := 0
  resolution_time := 10
  yes_pool := U64_MAX / 2
  no_pool := U64_MAX / 2
  total_liquidity := U64_MAX
  resolved := false
  outcome := none
  yes_token_vault := 0
  no_token_vault := 0
  fee_collected := 0

def c1Chain : Chain := { market := c1Market, preds := [], paid := 0, deposited := 0 }

/-- Three maximal YES deposits, resolution to YES, three claims. -/
def c1Ops : List Op :=
  [.place 0 2 true U64_MAX, .place 0 3 true U64_MAX, .place 0 4 true U64_MAX,
   .resolve 10 1 true, .claim 2, .claim 3, .claim 4]

/-- Claim C1 counterexample: with deposits near `u64::MAX` the saturating
pool updates freeze `yes_pool` at `u64::MAX` while further depositors still
receive tokens, so three successful claims by distinct winning positions
pay out strictly more than `yes_pool + no_pool` at resolution (pools never
change after resolution, so the final pools are the resolution-time pools). -/
theorem conservation_counterexample :
    initChain 0 1 0 0 1 "q" 10 U64_MAX = .ok c1Chain ∧
      (run c1Chain c1Ops).market.yes_pool + (run c1Chain c1Ops).market.no_pool
        < (run c1Chain c1Ops).paid := by
  refine ⟨by rfl, by decide⟩

/-- Claim C1 (amended): provided the seed liquidity plus all deposit
amounts fits in `u64` (so no pool update saturates), the total ever paid
out by `claim_reward` along any request sequence — deposits while open, at
most one successful resolution, claims marked by the claimed flag so each
position pays at most once — never exceeds the reservoir
`yes_pool + no_pool`. -/
theorem conservation_bounded (now : Int) (cr ytv ntv mid : Nat) (q : String)
    (rt : Int) (L : Nat) (c0 : Chain)
    (h : initChain now cr ytv ntv mid q rt L = .ok c0)
    (ops : List Op) (hB : L + sumDeposits ops ≤ U64_MAX) :
    (run c0 ops).paid
      ≤ (run c0 ops).market.yes_pool + (run c0 ops).market.no_pool := by
  obtain ⟨hI, hdep⟩ := initChain_Inv h
  have hB' : L + c0.deposited + sumDeposits ops ≤ U64_MAX := by
    rw [hdep]
    omega
  exact Inv_paid_le (run_preserves_Inv ops c0 hI hB').1

/-- Market seeded with 1000 units for the C1 witness. -/
def c1WMarket : Market where
  market_id := 9
  question := "q"
  creator := 1
  created_at := 0
  resolution_time := 10
  yes_pool := 500
  no_pool := 500
  total_liquidity := 1000
  resolved := false
  outcome := none
  yes_token_vault := 0
  no_token_vault := 0
  fee_collected := 0

def c1WChain : Chain := { market := c1WMarket, preds := [], paid := 0, deposited := 0 }

theorem conservation_bounded_witness :
    (run c1WChain [Op.place 0 7 true 500, Op.resolve 10 1 true, Op.claim 7]).paid
      ≤ (run c1WChain [Op.place 0 7 true 500, Op.resolve 10 1 true,
            Op.claim 7]).market.yes_pool
        + (run c1WChain [Op.place 0 7 true 500, Op.resolve 10 1 true,
            Op.claim 7]).market.no_pool :=
  conservation_bounded 0 1 0 0 9 "q" 10 1000 c1WChain (by rfl)
    [Op.place 0 7 true 500, Op.resolve 10 1 true, Op.claim 7] (by decide)

/-- Freshly created market for C9. -/
def c9Market : Market where
  market_id := 10
  question := "q"
  creator := 1
  created_at := 0
  resolution_time := 10
  yes_pool := 50
  no_pool := 50
  total_liquidity := 100
  resolved := false
  outcome := none
  yes_token_vault := 0
  no_token_vault := 0
  fee_collected := 0

def c9Chain : Chain := { market := c9Market, preds := [], paid := 0, deposited := 0 }

/-- Claim C9 counterexample: in a freshly created (hence reachable) state a
`withdraw_fees` with `amount = 5 > 0` by a non-creator (caller 2, creator
1) fails with `Unauthorized`, not `InsufficientFees` — the creator check
runs first. -/
theorem fee_collected_zero_counterexample :
    initChain 0 1 0 0 10 "q" 10 100 = .ok c9Chain ∧
      withdraw_fees c9Chain.market 2 5 = .error .Unauthorized ∧
      withdraw_fees c9Chain.market 2 5 ≠ .error .InsufficientFees := by
  refine ⟨by rfl, by rfl, by decide⟩

/-- Claim C9 (amended): `fee_collected` is 0 in every reachable state (it is
initialized to 0 and nothing increments it), so `withdraw_fees` with
`amount > 0` always fails — with `InsufficientFees` when the caller is the
creator, `Unauthorized` otherwise — and `withdraw_fees` succeeds only when
the caller is the creator and `amount ≤ fee_collected`. -/
theorem fee_collected_zero (now : Int) (cr ytv ntv mid : Nat) (q : String)
    (rt : Int) (L : Nat) (c0 : Chain)
    (h : initChain now cr ytv ntv mid q rt L = .ok c0) (ops : List Op) :
    (run c0 ops).market.fee_collected = 0 ∧
      (∀ amt, 0 < amt →
        withdraw_fees (run c0 ops).market ((run c0 ops).market.creator) amt
          = .error .InsufficientFees) ∧
      (∀ (m : Market) (ad amt : Nat) (x : Market × Nat),
        withdraw_fees m ad amt = .ok x → m.creator = ad ∧ amt ≤ m.fee_collected) := by
  obtain ⟨m0, hm0, hc0⟩ := initChain_ok_inv h
  obtain ⟨_, _, _, hm0val⟩ := initialize_market_ok_inv hm0
  have hfee0 : c0.market.fee_collected = 0 := by
    rw [hc0, hm0val]
  have hf : (run c0 ops).market.fee_collected = 0 := run_preserves_fee_zero hfee0
  refine ⟨hf, ?_, ?_⟩
  · intro amt hamt
    have hle : ¬(amt ≤ (run c0 ops).market.fee_collected) := by
      rw [hf]
      omega
    unfold withdraw_fees
    rw [if_pos rfl, if_neg hle]
  · intro m ad amt x hx
    obtain ⟨h1, h2, _⟩ := withdraw_fees_ok_inv hx
    exact ⟨h1, h2⟩

theorem fee_collected_zero_witness :
    (run c9Chain [Op.withdraw 1 0]).market.fee_collected = 0 ∧
      withdraw_fees (run c9Chain [Op.withdraw 1 0]).market 1 5
        = .error .InsufficientFees := by
  have h := fee_collected_zero 0 1 0 0 10 "q" 10 100 c9Chain (by rfl) [Op.withdraw 1 0]
  exact ⟨h.1, h.2.1 5 (by decide)⟩

/-- Claim C10: one `claim_reward` request (successful or failed) leaves the
`Market` record — in particular `yes_pool`, `no_pool`, `resolved`,
`outcome` and `fee_collected` — exactly as it was, touches no other
predictor's account, and therefore leaves the `claim_reward` result of
every other position unchanged: each winner's reward is computed against
the pools frozen at resolution, independent of how many others claimed
first. -/
theorem claim_reward_market_frame (c : Chain) (q2 : Nat) :
    (run c [Op.claim q2]).market = c.market ∧
      (∀ p, p ≠ q2 →
        lookupPred p (run c [Op.claim q2]).preds = lookupPred p c.preds) ∧
      (∀ p pr2, p ≠ q2 →
        claim_reward (run c [Op.claim q2]).market pr2 p
          = claim_reward c.market pr2 p) := by
  cases hstep : step c (Op.claim q2) with
  | none =>
    have hrun : run c [Op.claim q2] = c := by
      show (step c (Op.claim q2)).getD c = c
      rw [hstep]
      rfl
    rw [hrun]
    exact ⟨rfl, fun _ _ => rfl, fun _ _ _ => rfl⟩
  | some c' =>
    have hrun : run c [Op.claim q2] = c' := by
      show (step c (Op.claim q2)).getD c = c'
      rw [hstep]
      rfl
    obtain ⟨pred, pred', r, hlk, hok, hc'⟩ := step_claim_some hstep
    rw [hrun]
    subst hc'
    refine ⟨rfl, ?_, ?_⟩
    · intro p hp
      exact lookupPred_setPred_ne hp _
    · intro p pr2 hp
      rfl

/-- Resolved market with two winning positions for the C10 witness. -/
def c10Market : Market where
  market_id := 11
  question := "q"
  creator := 1
  created_at := 0
  resolution_time := 10
  yes_pool := 1000
  no_pool := 500
  total_liquidity := 1500
  resolved := true
  outcome := some true
  yes_token_vault := 0
  no_token_vault := 0
  fee_collected := 0

def c10PredA : Prediction where
  market_id := 11
  predictor := 7
  prediction_type := true
  amount_deposited := 100
  tokens_received := 90
  created_at := 0
  claimed := false

def c10PredB : Prediction where
  market_id := 11
  predictor := 8
  prediction_type := true
  amount_deposited := 60
  tokens_received := 50
  created_at := 0
  claimed := false

def c10Chain : Chain :=
  { market := c10Market, preds := [(7, c10PredA), (8, c10PredB)], paid := 0, deposited := 0 }

theorem claim_reward_market_frame_witness :
    (run c10Chain [Op.claim 8]).market = c10Chain.market ∧
      lookupPred 7 (run c10Chain [Op.claim 8]).preds = lookupPred 7 c10Chain.preds := by
  have h := claim_reward_market_frame c10Chain 8
  exact ⟨h.1, h.2.1 7 (by decide)⟩

end PredictionMarket
